import Mathlib

/-!
# Verification of the `VFS` core of the OS shell emulator

Shallow embedding of the `VFS` class from `src/main.py`: the path resolver
(`normalize_path`), the node tree and its lookup (`get_node`), the archive
importer (`load_from_zip`), and the four command-level operations
(`list_dir`, `change_dir`, `cat_file`, `chmod`).  Python strings are
modelled as Lean `String`/`List Char`, byte strings as `List Nat` (each
byte `< 256`), and the dictionary-based node representation as a
one-constructor inductive carrying all fields (`type` tag, `children`
association list in insertion order, `content`, optional `permissions`).
-/

namespace OsShell

/-! ## Path resolver (`VFS.normalize_path`, `src/main.py` lines 25-41) -/

/-- Python `s.rstrip("/")`: drop every trailing `'/'`. -/
def rstripSlash (l : List Char) : List Char :=
  (l.reverse.dropWhile (fun c => c == '/')).reverse

/-- POSIX `os.path.join(a, b)` for two arguments, as called in
`VFS.normalize_path` (the second argument never starts with `'/'` there,
but the full behaviour is kept). -/
def pyJoin (a b : List Char) : List Char :=
  if b.head? = some '/' then b
  else if a = [] ∨ a.getLast? = some '/' then a ++ b
  else a ++ '/' :: b

/-- The comprehension filter `p not in ("", ".")`. -/
def goodSeg (p : List Char) : Bool := p != [] && p != ['.']

/-- `[p for p in target.split("/") if p not in ("", ".")]`. -/
def segsOf (l : List Char) : List (List Char) :=
  (l.splitOn '/').filter goodSeg

/-- The loop over `parts` in `VFS.normalize_path`: `".."` pops the last
accumulated segment when one exists (silent no-op at root), any other
segment is appended. -/
def resolveSegs : List (List Char) → List (List Char) → List (List Char)
  | [], acc => acc
  | p :: rest, acc =>
    if p = ['.', '.'] then resolveSegs rest acc.dropLast
    else resolveSegs rest (acc ++ [p])

/-- `return "/" + "/".join(resolved) if resolved else "/"`. -/
def joinResolved (resolved : List (List Char)) : String :=
  if resolved = [] then "/" else String.mk ('/' :: List.intercalate ['/'] resolved)

/-- First step of `VFS.normalize_path`: absolute paths are taken as-is,
relative ones are joined onto the current directory and right-stripped of
slashes. -/
def normalizeTarget (current path : String) : List Char :=
  if path.data.head? = some '/' then path.data
  else rstripSlash (pyJoin current.data path.data)

/-- `VFS.normalize_path(self, path)` with `self.current_path` passed
explicitly as `current`. -/
def normalize_path (current path : String) : String :=
  joinResolved (resolveSegs (segsOf (normalizeTarget current path)) [])

/-! ## Node tree (`src/main.py` lines 20-23 and 43-56)

A Python node is a dict with a `"type"` tag and the optional keys
`"children"`, `"content"`, `"permissions"`; `node.get("children", {})`,
`node.get("content", "")`, `node.get("permissions", 0)` supply the
defaults, so an absent `children`/`content` key is observationally an
empty one, and these defaults are made explicit fields.  The root created
in `VFS.__init__` has no `"permissions"` key, and `chmod` can add one,
hence `permissions : Option Int`.  Dict insertion order is the list
order. -/

inductive Node where
  | mk (type : String) (children : List (String × Node)) (content : List Char)
       (permissions : Option Int)

def Node.type : Node → String
  | .mk t _ _ _ => t

def Node.children : Node → List (String × Node)
  | .mk _ c _ _ => c

def Node.content : Node → List Char
  | .mk _ _ c _ => c

def Node.permissions : Node → Option Int
  | .mk _ _ _ p => p

/-- Replace the three non-`children` fields around a new child list
(`node` with `"children"` rewritten). -/
def Node.withChildren : Node → List (String × Node) → Node
  | .mk t _ c p, ch => .mk t ch c p

/-- `node["permissions"] = m`. -/
def Node.withPermissions : Node → Int → Node
  | .mk t ch c _, m => .mk t ch c (some m)

/-- `children[k]` when present (`part in node.get("children", {})` plus the
subsequent access). -/
def getChild (ch : List (String × Node)) (k : String) : Option Node :=
  (ch.find? (fun p => p.1 == k)).map (fun p => p.2)

/-- `children[k] = v` on a Python dict: replace in place when the key
exists (insertion order kept), otherwise append. -/
def setChild (ch : List (String × Node)) (k : String) (v : Node) :
    List (String × Node) :=
  if (ch.find? (fun p => p.1 == k)).isSome then
    ch.map (fun p => if p.1 == k then (k, v) else p)
  else ch ++ [(k, v)]

/-- Session state of `VFS.__init__`: the owned root and the current path. -/
structure VFS where
  root : Node
  current_path : String

/-- `VFS()` : `{"type": "dir", "children": {}}` and `current_path = "/"`. -/
def initVFS : VFS := ⟨Node.mk "dir" [] [] none, "/"⟩

/-- `[p for p in path.split("/") if p]` in `VFS.get_node`. -/
def nodeSegs (p : String) : List String :=
  ((p.data.splitOn '/').filter (fun s => s != [])).map String.mk

/-- The descent loop of `VFS.get_node`: child lookup segment by segment,
`None` on a missing child. -/
def get_node_aux : Node → List String → Option Node
  | node, [] => some node
  | node, part :: rest =>
    match getChild node.children part with
    | some child => get_node_aux child rest
    | none => none

/-- `VFS.get_node` after its own call to `normalize_path`: `"/"` resolves
to the root, otherwise walk the nonempty segments. -/
def get_node_from (root : Node) (p : String) : Option Node :=
  if p = "/" then some root else get_node_aux root (nodeSegs p)

/-- `VFS.get_node(self, path)` (`src/main.py` lines 43-56). -/
def get_node (v : VFS) (path : String) : Option Node :=
  get_node_from v.root (normalize_path v.current_path path)

/-! ## Base64 (`base64.b64encode` / `b64decode` as used on lines 73, 133)

`load_from_zip` stores `base64.b64encode(content).decode()` as the file
content, and `cat_file` feeds that text back through
`base64.b64decode`.  The strict RFC 4648 alphabet used by Python is
modelled; `b64decode` is written for the well-formed padded form that
`b64encode` produces and answers `none` elsewhere (Python raises there,
which `cat_file` turns into its fallback branch). -/

def b64Alphabet : List Char :=
  "ABCDEFGHIJKLMNOPQRSTUVWXYZabcdefghijklmnopqrstuvwxyz0123456789+/".data

def b64Char (n : Nat) : Char := b64Alphabet.getD n 'A'

def b64DecChar (c : Char) : Option Nat :=
  b64Alphabet.findIdx? (fun x => x == c)

def b64encode : List Nat → List Char
  | [] => []
  | [a] => [b64Char (a / 4), b64Char (a % 4 * 16), '=', '=']
  | [a, b] => [b64Char (a / 4), b64Char (a % 4 * 16 + b / 16), b64Char (b % 16 * 4), '=']
  | a :: b :: c :: rest =>
    b64Char (a / 4) :: b64Char (a % 4 * 16 + b / 16) ::
      b64Char (b % 16 * 4 + c / 64) :: b64Char (c % 64) :: b64encode rest

def b64decode : List Char → Option (List Nat)
  | [] => some []
  | a :: b :: c :: d :: rest =>
    match b64DecChar a, b64DecChar b with
    | some x, some y =>
      if c = '=' ∧ d = '=' ∧ rest = [] then some [x * 4 + y / 16]
      else
        match b64DecChar c with
        | some z =>
          if d = '=' ∧ rest = [] then some [x * 4 + y / 16, y % 16 * 16 + z / 4]
          else
            match b64DecChar d, b64decode rest with
            | some w, some bs =>
              some ((x * 4 + y / 16) :: (y % 16 * 16 + z / 4) :: (z % 4 * 64 + w) :: bs)
            | _, _ => none
        | none => none
    | _, _ => none
  | _ => none

/-! ## Strict UTF-8 decoding (`bytes.decode()` on line 133)

CPython's strict UTF-8 decoder: rejects continuation-byte starts, overlong
encodings, surrogates and code points above U+10FFFF; any failure raises,
which `cat_file` catches. -/

def utf8Decode : List Nat → Option (List Char)
  | [] => some []
  | b1 :: rest =>
    if b1 < 0x80 then
      match utf8Decode rest with
      | some t => some (Char.ofNat b1 :: t)
      | none => none
    else if b1 < 0xC2 then none
    else if b1 < 0xE0 then
      match rest with
      | b2 :: rest2 =>
        if 0x80 ≤ b2 ∧ b2 < 0xC0 then
          match utf8Decode rest2 with
          | some t => some (Char.ofNat ((b1 - 0xC0) * 64 + (b2 - 0x80)) :: t)
          | none => none
        else none
      | [] => none
    else if b1 < 0xF0 then
      match rest with
      | b2 :: b3 :: rest3 =>
        if ((if b1 = 0xE0 then 0xA0 else 0x80) ≤ b2 ∧
              b2 < (if b1 = 0xED then 0xA0 else 0xC0)) ∧
            (0x80 ≤ b3 ∧ b3 < 0xC0) then
          match utf8Decode rest3 with
          | some t =>
            some (Char.ofNat ((b1 - 0xE0) * 4096 + (b2 - 0x80) * 64 + (b3 - 0x80)) :: t)
          | none => none
        else none
      | _ => none
    else if b1 < 0xF5 then
      match rest with
      | b2 :: b3 :: b4 :: rest4 =>
        if ((if b1 = 0xF0 then 0x90 else 0x80) ≤ b2 ∧
              b2 < (if b1 = 0xF4 then 0x90 else 0xC0)) ∧
            (0x80 ≤ b3 ∧ b3 < 0xC0) ∧ (0x80 ≤ b4 ∧ b4 < 0xC0) then
          match utf8Decode rest4 with
          | some t =>
            some (Char.ofNat ((b1 - 0xF0) * 262144 + (b2 - 0x80) * 4096 +
              (b3 - 0x80) * 64 + (b4 - 0x80)) :: t)
          | none => none
        else none
      | _ => none
    else none

/-! ## Archive importer (`VFS.load_from_zip`, `src/main.py` lines 58-88) -/

/-- One archive entry: `info.filename` plus the bytes `zf.read` returns
for it (ignored for directory entries). -/
structure ZipEntry where
  filename : String
  content : List Nat

/-- `zipfile.ZipInfo.is_dir()`: the stored name ends with `'/'`. -/
def entryIsDir (e : ZipEntry) : Bool := e.filename.data.getLast? = some '/'

/-- `path = info.filename.rstrip("/")` then `parts = path.split("/")`. -/
def entryParts (e : ZipEntry) : List String :=
  ((rstripSlash e.filename.data).splitOn '/').map String.mk

/-- The per-entry walk of `load_from_zip`.  The final segment of a file
entry is assigned a fresh File node unconditionally (`children[part] =
{...}`); every other step ensures a Directory child exists (creating it
with permission `0o755`) and descends.  The in-place dict mutation is
rendered as a functional update along the walked path. -/
def insertParts (isDir : Bool) (content : List Nat) : Node → List String → Node
  | node, [] => node
  | node, part :: rest =>
    if rest.isEmpty && !isDir then
      node.withChildren
        (setChild node.children part (Node.mk "file" [] (b64encode content) (some 420)))
    else
      match getChild node.children part with
      | some child =>
        node.withChildren (setChild node.children part (insertParts isDir content child rest))
      | none =>
        node.withChildren
          (node.children ++
            [(part, insertParts isDir content (Node.mk "dir" [] [] (some 493)) rest)])

/-- One iteration of `for info in zf.infolist()`. -/
def insertEntry (n : Node) (e : ZipEntry) : Node :=
  insertParts (entryIsDir e) e.content n (entryParts e)

/-- The whole entry loop. -/
def load_entries (n : Node) (es : List ZipEntry) : Node :=
  es.foldl insertEntry n

/-- `VFS.load_from_zip`.  The zip container is presented as its entry
list; `failAfter = some k` models the `except` path: the container read
raises after `k` entries were processed, so the loop's mutations up to
that point stay in `self.root` and the method returns `False`.
`failAfter = none` is the fully successful read returning `True`. -/
def load_from_zip (v : VFS) (entries : List ZipEntry) (failAfter : Option Nat) :
    Bool × VFS :=
  match failAfter with
  | none => (true, ⟨load_entries v.root entries, v.current_path⟩)
  | some k => (false, ⟨load_entries v.root (entries.take k), v.current_path⟩)

/-! ## Command-level operations (`src/main.py` lines 90-152)

Each operation is embedded with its structured outcome instead of the
Russian message strings it formats: the distinct `return` statements of
the Python method are the constructors. -/

inductive LsResult where
  | ok (entries : List (String × String × Int))
  | notFound
  | notADirectory
deriving DecidableEq

inductive CdResult where
  | ok (path : String)
  | notFound
  | notADirectory
deriving DecidableEq

inductive CatResult where
  | ok (text : List Char)
  | notFound
  | notAFile
deriving DecidableEq

inductive ChmodResult where
  | ok (mode : Int)
  | notFound
  | invalidMode
deriving DecidableEq

/-- `VFS.list_dir` (lines 90-106).  Each listed child contributes its
name, its `"type"` tag and `child.get("permissions", 0)`, in the stored
(insertion) order; the `"d"/"-"` and octal formatting of the returned
string is presentation only. -/
def list_dir (v : VFS) (path : String) : LsResult :=
  match get_node v (normalize_path v.current_path path) with
  | none => .notFound
  | some node =>
    if node.type != "dir" then .notADirectory
    else .ok (node.children.map (fun c => (c.1, c.2.type, c.2.permissions.getD 0)))

/-- `VFS.change_dir` (lines 108-119). -/
def change_dir (v : VFS) (path : String) : CdResult × VFS :=
  match get_node v (normalize_path v.current_path path) with
  | none => (.notFound, v)
  | some node =>
    if node.type != "dir" then (.notADirectory, v)
    else (.ok (normalize_path v.current_path path),
          ⟨v.root, normalize_path v.current_path path⟩)

/-- `VFS.cat_file` (lines 121-135): look the node up, demand a file, then
`base64.b64decode(content).decode()` under `try`, returning the stored
text itself when either decoding step raises. -/
def cat_file (v : VFS) (path : String) : CatResult :=
  match get_node v (normalize_path v.current_path path) with
  | none => .notFound
  | some node =>
    if node.type != "file" then .notAFile
    else
      match b64decode node.content with
      | some bytes =>
        match utf8Decode bytes with
        | some text => .ok text
        | none => .ok node.content
      | none => .ok node.content

/-- Python `int(s, 8)`: optional surrounding whitespace, optional sign,
optional `0o`/`0O` prefix (with an optional underscore after it), then
octal digits with single underscores allowed between digits. -/
def isOctDigit (c : Char) : Bool := '0' ≤ c && c ≤ '7'

def octTail : List Char → Bool
  | [] => true
  | '_' :: c :: rest => isOctDigit c && octTail rest
  | c :: rest => isOctDigit c && octTail rest

def octCore : List Char → Bool
  | [] => false
  | c :: rest => isOctDigit c && octTail rest

def octValue (l : List Char) : Nat :=
  l.foldl (fun a c => if c = '_' then a else a * 8 + (c.toNat - 48)) 0

def pyIntOct (s : String) : Option Int :=
  let l0 := (s.data.dropWhile Char.isWhitespace).reverse.dropWhile Char.isWhitespace
  let l1 := l0.reverse
  let sign : Int := match l1.head? with
    | some '-' => -1
    | _ => 1
  let l2 := match l1 with
    | '-' :: t => t
    | '+' :: t => t
    | t => t
  let l3 := match l2 with
    | '0' :: 'o' :: t => (match t with | '_' :: u => u | u => u)
    | '0' :: 'O' :: t => (match t with | '_' :: u => u | u => u)
    | t => t
  if octCore l3 then some (sign * (octValue l3 : Int)) else none

/-- Assigning through the reference `get_node` returned: rewrite the
permissions of the node reached by exactly the segments `get_node`
walked, leaving the rest of the tree as the mutation does. -/
def update_at : Node → List String → Int → Node
  | node, [], m => node.withPermissions m
  | node, part :: rest, m =>
    match getChild node.children part with
    | some child => node.withChildren (setChild node.children part (update_at child rest m))
    | none => node

/-- `VFS.chmod` (lines 137-152): resolve and look up first (`NotFound`
when missing), then parse the mode under `try` (`ValueError` gives the
invalid-mode return and no mutation), finally assign
`node["permissions"] = mode` through the reference `get_node` returned,
which is the node sitting at the walked segments of the resolved path. -/
def chmod (v : VFS) (mode path : String) : ChmodResult × VFS :=
  match get_node v (normalize_path v.current_path path) with
  | none => (.notFound, v)
  | some _ =>
    match pyIntOct mode with
    | none => (.invalidMode, v)
    | some m =>
      (.ok m,
       ⟨update_at v.root
          (nodeSegs (normalize_path v.current_path (normalize_path v.current_path path))) m,
        v.current_path⟩)

/-- Import of the single file entry `f` with content bytes `B` into a
fresh session. -/
def oneFileVFS (B : List Nat) : VFS :=
  (load_from_zip initVFS [⟨"f", B⟩] none).2

/-! ## Concrete sessions used by the theorems -/

/-- A successful import of `docs/`, `docs/readme.txt` (= `b"hello"`). -/
def docsVFS : VFS :=
  (load_from_zip initVFS
    [⟨"docs/", []⟩, ⟨"docs/readme.txt", [104, 101, 108, 108, 111]⟩] none).2

/-- A successful import seeding a directory whose children arrive in
non-alphabetical order. -/
def seededVFS : VFS :=
  (load_from_zip initVFS [⟨"d/", []⟩, ⟨"d/b", [98]⟩, ⟨"d/a", [97]⟩] none).2

/-- A successful import of one file holding the non-UTF-8 byte `0xFF`. -/
def binVFS : VFS :=
  (load_from_zip initVFS [⟨"f", [255]⟩] none).2

/-! ## Observations used by the statements -/

/-- A canonical-path segment as `normalize_path` produces it: nonempty,
not `"."`, not `".."`, slash-free. -/
def GoodOut (s : List Char) : Prop :=
  s ≠ [] ∧ s ≠ ['.'] ∧ s ≠ ['.', '.'] ∧ '/' ∉ s

/-- Everything about a node except its permission value and its child
subtrees: the type tag, the child names in order, and the content. -/
def nodeView (n : Node) : String × List String × List Char :=
  (n.type, n.children.map Prod.fst, n.content)

/-- The §3 invariant check on a stored permission value: an absent
`"permissions"` key has no stored value to constrain; `0o777 = 511`. -/
def permOK : Option Int → Bool
  | none => true
  | some m => decide (0 ≤ m) && decide (m ≤ 511)

mutual

/-- Every node of the subtree satisfies `permOK`. -/
def Node.permsOKb : Node → Bool
  | .mk _ ch _ p => permOK p && childrenPermsOKb ch

def childrenPermsOKb : List (String × Node) → Bool
  | [] => true
  | c :: rest => c.2.permsOKb && childrenPermsOKb rest

end

/-! ## Sanity checks on concrete inputs -/

example : normalize_path "/x" "/a/b/../c" = "/a/c" := by decide
example : normalize_path "/a" "../../x" = "/x" := by decide
example : normalize_path "/a/b" "." = "/a/b" := by decide
example : normalize_path "/a/b" "" = "/a/b" := by decide
example : normalize_path "/" "" = "/" := by decide
example : normalize_path "/a" "c/./d//" = "/a/c/d" := by decide
example : b64encode [104, 105] = "aGk=".data := by decide
example : b64encode [255] = "/w==".data := by decide
example : b64decode "/w==".data = some [255] := by decide
example : b64decode "aGVsbG8=".data = some [104, 101, 108, 108, 111] := by decide
example : utf8Decode [104, 105] = some "hi".data := by decide
example : utf8Decode [255] = none := by decide
example : utf8Decode [208, 176] = some "а".data := by decide
example : pyIntOct "755" = some 493 := by decide
example : pyIntOct "7777" = some 4095 := by decide
example : pyIntOct "abc" = none := by decide
example : pyIntOct "0o644" = some 420 := by decide
example : pyIntOct " -7 " = some (-7) := by decide
example : pyIntOct "" = none := by decide
example : pyIntOct "8" = none := by decide
example : cat_file docsVFS "/docs/readme.txt" = .ok "hello".data := by decide
example : cat_file docsVFS "/docs" = .notAFile := by decide
example : cat_file docsVFS "/nope" = .notFound := by decide
example : list_dir seededVFS "/d" =
    .ok [("b", "file", 420), ("a", "file", 420)] := by decide
example : list_dir seededVFS "/d/a" = .notADirectory := by decide
example : cat_file binVFS "/f" = .ok "/w==".data := by decide
example : (get_node binVFS "/f").map Node.content = some "/w==".data := by decide
example : (change_dir docsVFS "/docs").2.current_path = "/docs" := by decide
example : (change_dir docsVFS "/zzz").1 = .notFound := by decide
example : (chmod docsVFS "700" "/docs/readme.txt").1 = .ok 448 := by decide
example :
    list_dir (chmod docsVFS "700" "/docs/readme.txt").2 "/docs" =
      .ok [("readme.txt", "file", 448)] := by decide
example : (chmod docsVFS "abc" "/docs").1 = .invalidMode := by decide
example : (chmod docsVFS "abc" "/zzz").1 = .notFound := by decide
example : (chmod docsVFS "7777" "/docs").1 = .ok 4095 := by decide
example : docsVFS.root.permsOKb = true := by decide

/-! ## Lemmas about the path resolver -/

theorem splitOn_sep_not_mem {c : Char} :
    ∀ {l s : List Char}, s ∈ l.splitOn c → c ∉ s := by
  intro l
  induction l with
  | nil =>
    intro s hs
    simp only [List.splitOn_nil, List.mem_singleton] at hs
    simp [hs]
  | cons x xs ih =>
    intro s hs
    rw [show (x :: xs).splitOn c = ((x :: xs).splitOnP (· == c)) from rfl,
      List.splitOnP_cons] at hs
    by_cases hxc : x = c
    · rw [if_pos (by simp [hxc])] at hs
      rcases List.mem_cons.mp hs with h | h
      · simp [h]
      · exact ih h
    · rw [if_neg (by simp [hxc])] at hs
      rcases hsp : xs.splitOnP (· == c) with _ | ⟨h0, t0⟩
      · exact absurd hsp (List.splitOnP_ne_nil _ xs)
      · rw [hsp, List.modifyHead_cons] at hs
        have hmem : ∀ u ∈ h0 :: t0, c ∉ u := by
          intro u hu
          exact ih (by rw [show xs.splitOn c = xs.splitOnP (· == c) from rfl, hsp]; exact hu)
        rcases List.mem_cons.mp hs with h | h
        · subst h
          intro hc
          rcases List.mem_cons.mp hc with h1 | h1
          · exact hxc h1.symm
          · exact hmem h0 (List.mem_cons_self _ _) h1
        · exact hmem s (List.mem_cons_of_mem _ h)

theorem segsOf_spec {l : List Char} :
    ∀ s ∈ segsOf l, s ≠ [] ∧ s ≠ ['.'] ∧ '/' ∉ s := by
  intro s hs
  rcases List.mem_filter.mp hs with ⟨hmem, hgood⟩
  have h2 := splitOn_sep_not_mem hmem
  simp only [goodSeg, Bool.and_eq_true, bne_iff_ne, ne_eq] at hgood
  exact ⟨hgood.1, hgood.2, h2⟩

theorem resolveSegs_good :
    ∀ (parts acc : List (List Char)),
      (∀ p ∈ parts, p ≠ [] ∧ p ≠ ['.'] ∧ '/' ∉ p) →
      (∀ p ∈ acc, GoodOut p) →
      ∀ p ∈ resolveSegs parts acc, GoodOut p := by
  intro parts
  induction parts with
  | nil =>
    intro acc _ hacc p hp
    rw [resolveSegs] at hp
    exact hacc p hp
  | cons q rest ih =>
    intro acc hparts hacc p hp
    rw [resolveSegs] at hp
    by_cases hq : q = ['.', '.']
    · rw [if_pos hq] at hp
      exact ih acc.dropLast
        (fun r hr => hparts r (List.mem_cons_of_mem _ hr))
        (fun r hr => hacc r (List.mem_of_mem_dropLast hr)) p hp
    · rw [if_neg hq] at hp
      refine ih (acc ++ [q])
        (fun r hr => hparts r (List.mem_cons_of_mem _ hr)) ?_ p hp
      intro r hr
      rcases List.mem_append.mp hr with h | h
      · exact hacc r h
      · have hqq := hparts q (List.mem_cons_self _ _)
        rw [List.mem_singleton.mp h]
        exact ⟨hqq.1, hqq.2.1, hq, hqq.2.2⟩

theorem resolveSegs_no_dotdot :
    ∀ (parts acc : List (List Char)),
      (∀ p ∈ parts, p ≠ ['.', '.']) →
      resolveSegs parts acc = acc ++ parts := by
  intro parts
  induction parts with
  | nil => intro acc _; rw [resolveSegs]; simp
  | cons q rest ih =>
    intro acc h
    rw [resolveSegs, if_neg (h q (List.mem_cons_self _ _)),
      ih (acc ++ [q]) (fun r hr => h r (List.mem_cons_of_mem _ hr))]
    simp

theorem normalize_segs_good (c p : String) :
    ∀ s ∈ resolveSegs (segsOf (normalizeTarget c p)) [], GoodOut s :=
  resolveSegs_good _ [] (fun r hr => segsOf_spec r hr) (by simp)

theorem joinResolved_data_head (R : List (List Char)) :
    (joinResolved R).data.head? = some '/' := by
  unfold joinResolved
  by_cases h : R = []
  · rw [if_pos h]; rfl
  · rw [if_neg h]; rfl

theorem intercalate_slash_cons {R : List (List Char)} (hR : R ≠ []) :
    List.intercalate ['/'] ([] :: R) = '/' :: List.intercalate ['/'] R := by
  cases R with
  | nil => exact absurd rfl hR
  | cons r rs => simp [List.intercalate, List.intersperse_cons_cons]

theorem splitOn_joinResolved {R : List (List Char)} (hR : R ≠ [])
    (hmem : ∀ s ∈ R, '/' ∉ s) :
    (joinResolved R).data.splitOn '/' = [] :: R := by
  have hdata : (joinResolved R).data = List.intercalate ['/'] ([] :: R) := by
    unfold joinResolved
    rw [if_neg hR, intercalate_slash_cons hR]
  rw [hdata]
  exact List.splitOn_intercalate ([] :: R) '/'
    (by
      intro l hl
      rcases List.mem_cons.mp hl with h | h
      · simp [h]
      · exact hmem l h)
    (List.cons_ne_nil _ _)

theorem segsOf_joinResolved {R : List (List Char)} (h : ∀ s ∈ R, GoodOut s) :
    segsOf (joinResolved R).data = R := by
  by_cases hR : R = []
  · subst hR; decide
  · unfold segsOf
    rw [splitOn_joinResolved hR (fun s hs => (h s hs).2.2.2)]
    rw [List.filter]
    have : goodSeg [] = false := by decide
    rw [this]
    exact List.filter_eq_self.mpr (fun s hs => by
      have hg := h s hs
      simp [goodSeg, hg.1, hg.2.1])

theorem nodeSegs_joinResolved {R : List (List Char)} (h : ∀ s ∈ R, GoodOut s) :
    nodeSegs (joinResolved R) = R.map String.mk := by
  by_cases hR : R = []
  · subst hR; decide
  · unfold nodeSegs
    rw [splitOn_joinResolved hR (fun s hs => (h s hs).2.2.2)]
    rw [List.filter]
    norm_num
    rw [List.filter_eq_self.mpr (fun s hs => by simp [(h s hs).1])]

theorem resolveSegs_canonical {R : List (List Char)} (h : ∀ s ∈ R, GoodOut s) :
    resolveSegs (segsOf (joinResolved R).data) [] = R := by
  rw [segsOf_joinResolved h]
  rw [resolveSegs_no_dotdot R [] (fun s hs => (h s hs).2.2.1)]
  simp

theorem normalize_path_idem (c c2 p : String) :
    normalize_path c2 (normalize_path c p) = normalize_path c p := by
  have hgood := normalize_segs_good c p
  show joinResolved (resolveSegs (segsOf
    (normalizeTarget c2 (normalize_path c p))) []) = normalize_path c p
  have htgt : normalizeTarget c2 (normalize_path c p) = (normalize_path c p).data := by
    unfold normalizeTarget
    rw [if_pos]
    show (joinResolved _).data.head? = some '/'
    exact joinResolved_data_head _
  rw [htgt]
  show joinResolved (resolveSegs (segsOf (joinResolved _).data) []) = _
  rw [resolveSegs_canonical hgood]
  rfl

theorem string_mk_injective : Function.Injective String.mk := by
  intro a b h
  exact congrArg String.data h

theorem canonical_inj {c1 p1 c2 p2 : String}
    (h : nodeSegs (normalize_path c1 p1) = nodeSegs (normalize_path c2 p2)) :
    normalize_path c1 p1 = normalize_path c2 p2 := by
  have h1 := nodeSegs_joinResolved (normalize_segs_good c1 p1)
  have h2 := nodeSegs_joinResolved (normalize_segs_good c2 p2)
  have hR : resolveSegs (segsOf (normalizeTarget c1 p1)) [] =
      resolveSegs (segsOf (normalizeTarget c2 p2)) [] := by
    apply List.map_injective_iff.mpr string_mk_injective
    rw [← h1, ← h2]
    exact h
  show joinResolved _ = joinResolved _
  rw [hR]

/-! ## Lemmas about the node tree and lookups -/

theorem get_node_normalize (v : VFS) (p : String) :
    get_node v (normalize_path v.current_path p) = get_node v p := by
  unfold get_node
  rw [normalize_path_idem]

theorem nodeSegs_root : nodeSegs "/" = [] := by decide

theorem get_node_from_eq_aux (root : Node) (p : String) :
    get_node_from root p = get_node_aux root (nodeSegs p) := by
  unfold get_node_from
  by_cases h : p = "/"
  · rw [if_pos h, h, nodeSegs_root]
    rfl
  · rw [if_neg h]

theorem Node.children_withChildren (n : Node) (ch : List (String × Node)) :
    (n.withChildren ch).children = ch := by
  cases n; rfl

theorem Node.permissions_withPermissions (n : Node) (m : Int) :
    (n.withPermissions m).permissions = some m := by
  cases n; rfl

theorem nodeView_withPermissions (n : Node) (m : Int) :
    nodeView (n.withPermissions m) = nodeView n := by
  cases n; rfl

theorem find?_cons_pos {α : Type} (f : α → Bool) (a : α) (l : List α)
    (h : f a = true) : List.find? f (a :: l) = some a :=
  List.find?_cons_of_pos l h

theorem find?_cons_neg {α : Type} (f : α → Bool) (a : α) (l : List α)
    (h : f a = false) : List.find? f (a :: l) = List.find? f l :=
  List.find?_cons_of_neg l (by simp [h])

theorem getChild_setChild_self (ch : List (String × Node)) (k : String) (v : Node) :
    getChild (setChild ch k v) k = some v := by
  unfold setChild
  by_cases h : (ch.find? (fun p => p.1 == k)).isSome = true
  · rw [if_pos h]
    induction ch with
    | nil => simp [List.find?] at h
    | cons p ps ih =>
      by_cases hp : (p.1 == k) = true
      · rw [List.map_cons, if_pos hp]
        unfold getChild
        rw [find?_cons_pos (fun q => q.1 == k) (k, v) _ (by simp)]
        rfl
      · have hp2 : (p.1 == k) = false := by simpa using hp
        rw [find?_cons_neg (fun q => q.1 == k) p ps hp2] at h
        rw [List.map_cons, if_neg hp]
        unfold getChild at ih ⊢
        rw [find?_cons_neg (fun q => q.1 == k) p _ hp2]
        exact ih h
  · rw [if_neg h]
    induction ch with
    | nil =>
      unfold getChild
      rw [List.nil_append, find?_cons_pos (fun q => q.1 == k) (k, v) _ (by simp)]
      rfl
    | cons p ps ih =>
      have hp : (p.1 == k) = false := by
        cases hfp : (p.1 == k) with
        | false => rfl
        | true =>
          rw [find?_cons_pos (fun q => q.1 == k) p ps hfp] at h
          simp at h
      rw [find?_cons_neg (fun q => q.1 == k) p ps hp] at h
      unfold getChild at ih ⊢
      rw [List.cons_append, find?_cons_neg (fun q => q.1 == k) p _ hp]
      exact ih h

theorem getChild_setChild_ne (ch : List (String × Node)) (k k2 : String) (v : Node)
    (hne : k2 ≠ k) : getChild (setChild ch k v) k2 = getChild ch k2 := by
  have hk2 : (k == k2) = false := by
    simp only [beq_eq_false_iff_ne, ne_eq]
    exact fun hcon => hne hcon.symm
  unfold setChild
  by_cases h : (ch.find? (fun p => p.1 == k)).isSome = true
  · rw [if_pos h]
    clear h
    induction ch with
    | nil => rfl
    | cons p ps ih =>
      unfold getChild at ih ⊢
      by_cases hp : (p.1 == k) = true
      · have hpk : p.1 = k := eq_of_beq hp
        have hp2 : (p.1 == k2) = false := by rw [hpk]; exact hk2
        rw [List.map_cons, if_pos hp,
          find?_cons_neg (fun q => q.1 == k2) (k, v) _ hk2,
          find?_cons_neg (fun q => q.1 == k2) p ps hp2]
        exact ih
      · rw [List.map_cons, if_neg hp]
        by_cases hq : (p.1 == k2) = true
        · rw [find?_cons_pos (fun q => q.1 == k2) p _ hq,
            find?_cons_pos (fun q => q.1 == k2) p ps hq]
        · have hq2 : (p.1 == k2) = false := by simpa using hq
          rw [find?_cons_neg (fun q => q.1 == k2) p _ hq2,
            find?_cons_neg (fun q => q.1 == k2) p ps hq2]
          exact ih
  · rw [if_neg h]
    clear h
    induction ch with
    | nil =>
      unfold getChild
      rw [List.nil_append, find?_cons_neg (fun q => q.1 == k2) (k, v) _ hk2]
    | cons p ps ih =>
      unfold getChild at ih ⊢
      rw [List.cons_append]
      by_cases hq : (p.1 == k2) = true
      · rw [find?_cons_pos (fun q => q.1 == k2) p _ hq,
          find?_cons_pos (fun q => q.1 == k2) p ps hq]
      · have hq2 : (p.1 == k2) = false := by simpa using hq
        rw [find?_cons_neg (fun q => q.1 == k2) p _ hq2,
          find?_cons_neg (fun q => q.1 == k2) p ps hq2]
        exact ih

theorem setChild_keys {ch : List (String × Node)} {k : String}
    (h : (ch.find? (fun p => p.1 == k)).isSome = true) (v : Node) :
    (setChild ch k v).map Prod.fst = ch.map Prod.fst := by
  unfold setChild
  rw [if_pos h, List.map_map]
  apply List.map_congr_left
  intro p _
  show (if (p.1 == k) = true then (k, v) else p).1 = p.1
  by_cases hpk : (p.1 == k) = true
  · rw [if_pos hpk]
    exact (eq_of_beq hpk).symm
  · rw [if_neg hpk]

theorem getChild_isSome_find (ch : List (String × Node)) (k : String) :
    (getChild ch k).isSome = (ch.find? (fun p => p.1 == k)).isSome := by
  unfold getChild
  cases ch.find? (fun p => p.1 == k) <;> rfl

/-! ## Frame lemmas for the permission update -/

theorem get_node_aux_withPermissions (n : Node) (m : Int) (q : String) (Q : List String) :
    get_node_aux (n.withPermissions m) (q :: Q) = get_node_aux n (q :: Q) := by
  cases n
  rfl

theorem Node.permissions_withChildren (n : Node) (ch : List (String × Node)) :
    (n.withChildren ch).permissions = n.permissions := by
  cases n
  rfl

theorem nodeView_withChildren_keys (n : Node) (ch : List (String × Node))
    (h : ch.map Prod.fst = n.children.map Prod.fst) :
    nodeView (n.withChildren ch) = nodeView n := by
  cases n
  simp only [nodeView, Node.withChildren, Node.type, Node.children, Node.content] at h ⊢
  rw [h]

theorem get_node_aux_update_self (m : Int) :
    ∀ (S : List String) (root : Node), (get_node_aux root S).isSome = true →
      get_node_aux (update_at root S m) S =
        (get_node_aux root S).map (fun n => n.withPermissions m) := by
  intro S
  induction S with
  | nil => intro root _; rfl
  | cons s S2 ih =>
    intro root h
    cases hgc : getChild root.children s with
    | none =>
      simp only [get_node_aux, hgc] at h
      exact absurd h (by simp)
    | some child =>
      have h2 : (get_node_aux child S2).isSome = true := by
        simpa only [get_node_aux, hgc] using h
      have hs : update_at root (s :: S2) m =
          root.withChildren (setChild root.children s (update_at child S2 m)) := by
        simp only [update_at, hgc]
      rw [hs]
      simp only [get_node_aux, Node.children_withChildren, getChild_setChild_self, hgc]
      exact ih child h2

theorem get_node_aux_update_view (m : Int) :
    ∀ (S : List String) (root : Node), (get_node_aux root S).isSome = true →
      ∀ Q : List String,
        (get_node_aux (update_at root S m) Q).map nodeView =
          (get_node_aux root Q).map nodeView := by
  intro S
  induction S with
  | nil =>
    intro root _ Q
    cases Q with
    | nil =>
      show some (nodeView ((update_at root [] m))) = some (nodeView root)
      rw [show update_at root [] m = root.withPermissions m from rfl,
        nodeView_withPermissions]
    | cons q Q2 =>
      rw [show update_at root [] m = root.withPermissions m from rfl,
        get_node_aux_withPermissions]
  | cons s S2 ih =>
    intro root h Q
    cases hgc : getChild root.children s with
    | none =>
      simp only [get_node_aux, hgc] at h
      exact absurd h (by simp)
    | some child =>
      have h2 : (get_node_aux child S2).isSome = true := by
        simpa only [get_node_aux, hgc] using h
      have hs : update_at root (s :: S2) m =
          root.withChildren (setChild root.children s (update_at child S2 m)) := by
        simp only [update_at, hgc]
      rw [hs]
      cases Q with
      | nil =>
        show some (nodeView (root.withChildren _)) = some (nodeView root)
        congr 1
        apply nodeView_withChildren_keys
        apply setChild_keys
        rw [← getChild_isSome_find, hgc]
        rfl
      | cons q Q2 =>
        by_cases hq : q = s
        · subst hq
          simp only [get_node_aux, Node.children_withChildren, getChild_setChild_self, hgc]
          exact ih child h2 Q2
        · simp only [get_node_aux, Node.children_withChildren,
            getChild_setChild_ne _ _ _ _ hq]

theorem get_node_aux_update_perms (m : Int) :
    ∀ (S : List String) (root : Node), (get_node_aux root S).isSome = true →
      ∀ Q : List String, Q ≠ S →
        (get_node_aux (update_at root S m) Q).map Node.permissions =
          (get_node_aux root Q).map Node.permissions := by
  intro S
  induction S with
  | nil =>
    intro root _ Q hQ
    cases Q with
    | nil => exact absurd rfl hQ
    | cons q Q2 =>
      rw [show update_at root [] m = root.withPermissions m from rfl,
        get_node_aux_withPermissions]
  | cons s S2 ih =>
    intro root h Q hQ
    cases hgc : getChild root.children s with
    | none =>
      simp only [get_node_aux, hgc] at h
      exact absurd h (by simp)
    | some child =>
      have h2 : (get_node_aux child S2).isSome = true := by
        simpa only [get_node_aux, hgc] using h
      have hs : update_at root (s :: S2) m =
          root.withChildren (setChild root.children s (update_at child S2 m)) := by
        simp only [update_at, hgc]
      rw [hs]
      cases Q with
      | nil =>
        show some ((root.withChildren _).permissions) = some root.permissions
        rw [Node.permissions_withChildren]
      | cons q Q2 =>
        by_cases hq : q = s
        · subst hq
          have hQ2 : Q2 ≠ S2 := by
            intro hcon
            exact hQ (by rw [hcon])
          simp only [get_node_aux, Node.children_withChildren, getChild_setChild_self, hgc]
          exact ih child h2 Q2 hQ2
        · simp only [get_node_aux, Node.children_withChildren,
            getChild_setChild_ne _ _ _ _ hq]

/-! ## Lemmas about the permission-range invariant -/

theorem permsOKb_mk_eq (n : Node) :
    n.permsOKb = (permOK n.permissions && childrenPermsOKb n.children) := by
  cases n
  rfl

theorem childrenPermsOKb_forall {ch : List (String × Node)} :
    childrenPermsOKb ch = true ↔ ∀ p ∈ ch, p.2.permsOKb = true := by
  induction ch with
  | nil => simp [childrenPermsOKb]
  | cons c rest ih =>
    simp only [childrenPermsOKb, Bool.and_eq_true, ih, List.mem_cons]
    constructor
    · rintro ⟨h1, h2⟩ p hp
      rcases hp with h | h
      · rw [h]; exact h1
      · exact h2 p h
    · intro h
      exact ⟨h c (Or.inl rfl), fun p hp => h p (Or.inr hp)⟩

theorem getChild_permsOKb {ch : List (String × Node)} {k : String} {c : Node}
    (hch : childrenPermsOKb ch = true) (h : getChild ch k = some c) :
    c.permsOKb = true := by
  unfold getChild at h
  cases hf : ch.find? (fun p => p.1 == k) with
  | none => rw [hf] at h; cases h
  | some p =>
    rw [hf] at h
    have hc : p.2 = c := by simpa using h
    rw [← hc]
    exact childrenPermsOKb_forall.mp hch p (List.mem_of_find?_eq_some hf)

theorem childrenPermsOKb_append (ch1 ch2 : List (String × Node)) :
    childrenPermsOKb (ch1 ++ ch2) = (childrenPermsOKb ch1 && childrenPermsOKb ch2) := by
  induction ch1 with
  | nil => simp [childrenPermsOKb]
  | cons c rest ih => simp [childrenPermsOKb, ih, Bool.and_assoc]

theorem setChild_permsOKb {ch : List (String × Node)} {k : String} {v : Node}
    (hch : childrenPermsOKb ch = true) (hv : v.permsOKb = true) :
    childrenPermsOKb (setChild ch k v) = true := by
  unfold setChild
  by_cases h : (ch.find? (fun p => p.1 == k)).isSome = true
  · rw [if_pos h]
    rw [childrenPermsOKb_forall] at hch ⊢
    intro p hp
    rcases List.mem_map.mp hp with ⟨q, hq, hfq⟩
    by_cases hqk : (q.1 == k) = true
    · rw [← hfq, if_pos hqk]
      exact hv
    · rw [← hfq, if_neg hqk]
      exact hch q hq
  · rw [if_neg h, childrenPermsOKb_append]
    simp only [Bool.and_eq_true]
    exact ⟨hch, by simp [childrenPermsOKb, hv]⟩

theorem insertParts_permsOKb (isDir : Bool) (content : List Nat) :
    ∀ (parts : List String) (node : Node), node.permsOKb = true →
      (insertParts isDir content node parts).permsOKb = true := by
  intro parts
  induction parts with
  | nil => intro node h; exact h
  | cons part rest ih =>
    intro node h
    rw [insertParts]
    by_cases hc : (rest.isEmpty && !isDir) = true
    · rw [if_pos hc]
      rw [permsOKb_mk_eq] at h ⊢
      rw [Node.children_withChildren, Node.permissions_withChildren]
      simp only [Bool.and_eq_true] at h ⊢
      exact ⟨h.1, setChild_permsOKb h.2 (by rw [permsOKb_mk_eq]; rfl)⟩
    · rw [if_neg hc]
      cases hgc : getChild node.children part with
      | some child =>
        simp only [hgc]
        rw [permsOKb_mk_eq] at h ⊢
        rw [Node.children_withChildren, Node.permissions_withChildren]
        simp only [Bool.and_eq_true] at h ⊢
        exact ⟨h.1, setChild_permsOKb h.2 (ih child (getChild_permsOKb h.2 hgc))⟩
      | none =>
        simp only [hgc]
        rw [permsOKb_mk_eq] at h ⊢
        rw [Node.children_withChildren, Node.permissions_withChildren]
        simp only [Bool.and_eq_true] at h ⊢
        refine ⟨h.1, ?_⟩
        rw [childrenPermsOKb_append]
        simp only [Bool.and_eq_true]
        refine ⟨h.2, ?_⟩
        simp only [childrenPermsOKb, Bool.and_eq_true]
        exact ⟨ih _ (by rw [permsOKb_mk_eq]; rfl), trivial⟩

theorem update_at_permsOKb {m : Int} (h0 : 0 ≤ m) (h1 : m ≤ 511) :
    ∀ (S : List String) (root : Node), root.permsOKb = true →
      (update_at root S m).permsOKb = true := by
  intro S
  induction S with
  | nil =>
    intro root h
    rw [show update_at root [] m = root.withPermissions m from rfl]
    cases root with
    | mk t ch c p =>
      rw [permsOKb_mk_eq] at h ⊢
      simp only [Node.withPermissions, Node.children, Node.permissions] at h ⊢
      simp only [Bool.and_eq_true] at h ⊢
      exact ⟨by simp [permOK, h0, h1], h.2⟩
  | cons s S2 ih =>
    intro root h
    cases hgc : getChild root.children s with
    | none =>
      simp only [update_at, hgc]
      exact h
    | some child =>
      simp only [update_at, hgc]
      rw [permsOKb_mk_eq] at h ⊢
      rw [Node.children_withChildren, Node.permissions_withChildren]
      simp only [Bool.and_eq_true] at h ⊢
      exact ⟨h.1, setChild_permsOKb h.2 (ih child (getChild_permsOKb h.2 hgc))⟩

theorem load_entries_permsOKb :
    ∀ (es : List ZipEntry) (n : Node), n.permsOKb = true →
      (load_entries n es).permsOKb = true := by
  intro es
  induction es with
  | nil => intro n h; exact h
  | cons e rest ih =>
    intro n h
    unfold load_entries at ih ⊢
    rw [List.foldl_cons]
    exact ih _ (insertParts_permsOKb _ _ _ _ h)

/-! ## Base64 round trip -/

theorem b64Char_table_check :
    ((List.range 64).all (fun n =>
      (b64DecChar (b64Char n) == some n) && (b64Char n != '='))) = true := by
  decide

theorem b64DecChar_b64Char {n : Nat} (h : n < 64) : b64DecChar (b64Char n) = some n := by
  have hx := List.all_eq_true.mp b64Char_table_check n (List.mem_range.mpr h)
  simp only [Bool.and_eq_true, beq_iff_eq] at hx
  exact hx.1

theorem b64Char_ne_pad {n : Nat} (h : n < 64) : b64Char n ≠ '=' := by
  have hx := List.all_eq_true.mp b64Char_table_check n (List.mem_range.mpr h)
  simp only [Bool.and_eq_true, bne_iff_ne] at hx
  exact hx.2

theorem b64decode_b64encode :
    ∀ (B : List Nat), (∀ b ∈ B, b < 256) → b64decode (b64encode B) = some B
  | [], _ => rfl
  | [a], h => by
    have ha : a < 256 := h a (by simp)
    rw [show b64encode [a] = [b64Char (a / 4), b64Char (a % 4 * 16), '=', '='] from rfl]
    simp only [b64decode, b64DecChar_b64Char (show a / 4 < 64 by omega),
      b64DecChar_b64Char (show a % 4 * 16 < 64 by omega)]
    simp
    omega
  | [a, b], h => by
    have ha : a < 256 := h a (by simp)
    have hb : b < 256 := h b (by simp)
    have hp1 : b64Char (b % 16 * 4) ≠ '=' := b64Char_ne_pad (by omega)
    rw [show b64encode [a, b] =
      [b64Char (a / 4), b64Char (a % 4 * 16 + b / 16), b64Char (b % 16 * 4), '='] from rfl]
    simp only [b64decode, b64DecChar_b64Char (show a / 4 < 64 by omega),
      b64DecChar_b64Char (show a % 4 * 16 + b / 16 < 64 by omega),
      b64DecChar_b64Char (show b % 16 * 4 < 64 by omega)]
    simp [hp1]
    omega
  | a :: b :: c :: rest, h => by
    have ha : a < 256 := h a (by simp)
    have hb : b < 256 := h b (by simp)
    have hc : c < 256 := h c (by simp)
    have hp1 : b64Char (b % 16 * 4 + c / 64) ≠ '=' := b64Char_ne_pad (by omega)
    have hp2 : b64Char (c % 64) ≠ '=' := b64Char_ne_pad (by omega)
    have IH := b64decode_b64encode rest (fun x hx => h x (by simp [hx]))
    rw [show b64encode (a :: b :: c :: rest) =
      b64Char (a / 4) :: b64Char (a % 4 * 16 + b / 16) ::
        b64Char (b % 16 * 4 + c / 64) :: b64Char (c % 64) ::
          b64encode rest from rfl]
    simp only [b64decode, b64DecChar_b64Char (show a / 4 < 64 by omega),
      b64DecChar_b64Char (show a % 4 * 16 + b / 16 < 64 by omega),
      b64DecChar_b64Char (show b % 16 * 4 + c / 64 < 64 by omega),
      b64DecChar_b64Char (show c % 64 < 64 by omega), IH]
    simp [hp1, hp2]
    omega

/-! ## Operation-level helper lemmas -/

theorem chmod_notfound {v : VFS} {mode path : String}
    (h : get_node v path = none) : chmod v mode path = (.notFound, v) := by
  unfold chmod
  rw [get_node_normalize, h]

theorem chmod_invalid {v : VFS} {mode path : String} {n : Node}
    (hn : get_node v path = some n) (hp : pyIntOct mode = none) :
    chmod v mode path = (.invalidMode, v) := by
  unfold chmod
  rw [get_node_normalize, hn, hp]

theorem chmod_ok {v : VFS} {mode path : String} {n : Node} {m : Int}
    (hn : get_node v path = some n) (hp : pyIntOct mode = some m) :
    chmod v mode path = (.ok m,
      ⟨update_at v.root (nodeSegs (normalize_path v.current_path path)) m,
       v.current_path⟩) := by
  unfold chmod
  rw [get_node_normalize, hn, hp, normalize_path_idem]

/-! ## Claim theorems -/

/-- C7: `normalize_path` treats a path starting with `"/"` as absolute and
otherwise joins it with the current directory, discards empty and `"."`
segments, and lets each `".."` pop the last accumulated segment when one
exists and otherwise silently no-op (clamp at root); consequently
`normalize("/a/b/../c", current) = "/a/c"` for every current directory,
`normalize("../../x", "/a") = "/x"`, and for all inputs the result starts
with `"/"`. -/
theorem C7_normalize_path_spec :
    (∀ current : String, normalize_path current "/a/b/../c" = "/a/c") ∧
    normalize_path "/a" "../../x" = "/x" ∧
    (∀ current path : String, (normalize_path current path).data.head? = some '/') := by
  refine ⟨?_, by decide, ?_⟩
  · intro current
    show joinResolved (resolveSegs (segsOf (normalizeTarget current "/a/b/../c")) []) = "/a/c"
    rw [show normalizeTarget current "/a/b/../c" = "/a/b/../c".data from by
      unfold normalizeTarget; rw [if_pos (by decide)]]
    decide
  · intro current path
    show (joinResolved _).data.head? = some '/'
    exact joinResolved_data_head _

/-- C10: `normalize_path` is idempotent — its output is already canonical,
so re-normalizing it under any current directory is the identity. -/
theorem C10_normalize_path_idempotent :
    ∀ (p c c2 : String),
      normalize_path c2 (normalize_path c p) = normalize_path c p :=
  fun p c c2 => normalize_path_idem c c2 p

/-- C6: after every successful `change_dir` the session's `current_path`
is the returned path and resolves to an existing directory node; after
every failed `change_dir` (missing target or not a directory) the
`current_path` is unchanged. -/
theorem C6_change_dir_invariant :
    ∀ (v : VFS) (path : String),
      (∀ t, (change_dir v path).1 = .ok t →
        (change_dir v path).2.current_path = t ∧
        ∃ n, get_node (change_dir v path).2 ((change_dir v path).2.current_path) =
          some n ∧ n.type = "dir") ∧
      (((change_dir v path).1 = .notFound ∨
         (change_dir v path).1 = .notADirectory) →
        (change_dir v path).2.current_path = v.current_path) := by
  intro v path
  rcases hg : get_node v (normalize_path v.current_path path) with _ | node
  · have hcd : change_dir v path = (.notFound, v) := by
      unfold change_dir
      rw [hg]
    rw [hcd]
    exact ⟨fun t ht => absurd ht (by simp), fun _ => rfl⟩
  · by_cases htyp : (node.type != "dir") = true
    · have hcd : change_dir v path = (.notADirectory, v) := by
        unfold change_dir
        simp only [hg]
        rw [if_pos htyp]
      rw [hcd]
      exact ⟨fun t ht => absurd ht (by simp), fun _ => rfl⟩
    · have hcd : change_dir v path = (.ok (normalize_path v.current_path path),
          ⟨v.root, normalize_path v.current_path path⟩) := by
        unfold change_dir
        simp only [hg]
        rw [if_neg htyp]
      rw [hcd]
      refine ⟨?_, fun hor => by rcases hor with h | h <;> cases h⟩
      intro t ht
      have htt : normalize_path v.current_path path = t := by cases ht; rfl
      refine ⟨htt, node, ?_, by simpa using htyp⟩
      show get_node ⟨v.root, normalize_path v.current_path path⟩
        (normalize_path v.current_path path) = some node
      unfold get_node at hg ⊢
      rw [normalize_path_idem] at hg ⊢
      exact hg

/-- C8: `list_dir` answers NotFound when the resolved path is missing,
NotADirectory when it resolves to a file, and otherwise the directory's
children as (name, kind, permissions) triples in stored insertion order;
on a concretely seeded archive the order is the import order, not
sorted. -/
theorem C8_list_dir_spec :
    (∀ (v : VFS) (path : String),
      (get_node v path = none → list_dir v path = .notFound) ∧
      (∀ n, get_node v path = some n → n.type ≠ "dir" →
        list_dir v path = .notADirectory) ∧
      (∀ n, get_node v path = some n → n.type = "dir" →
        list_dir v path =
          .ok (n.children.map (fun c => (c.1, c.2.type, c.2.permissions.getD 0))))) ∧
    list_dir seededVFS "/d" = .ok [("b", "file", 420), ("a", "file", 420)] := by
  refine ⟨?_, by decide⟩
  intro v path
  refine ⟨?_, ?_, ?_⟩
  · intro h
    unfold list_dir
    rw [get_node_normalize, h]
  · intro n h htyp
    unfold list_dir
    rw [get_node_normalize, h]
    simp only [if_pos (show (n.type != "dir") = true by simpa using htyp)]
  · intro n h htyp
    unfold list_dir
    rw [get_node_normalize, h]
    simp only [if_neg (show ¬(n.type != "dir") = true by simp [htyp])]

/-- C8 (witness): the error and enumeration clauses instantiated on
concrete sessions. -/
theorem C8_list_dir_witness :
    list_dir docsVFS "/zzz" = .notFound ∧
    list_dir docsVFS "/docs/readme.txt" = .notADirectory := by
  refine ⟨(C8_list_dir_spec.1 docsVFS "/zzz").1 rfl, ?_⟩
  exact (C8_list_dir_spec.1 docsVFS "/docs/readme.txt").2.1
    (Node.mk "file" [] (b64encode [104, 101, 108, 108, 111]) (some 420)) rfl
    (by decide)

/-- C6 (witness): a successful and a failed directory change on the
imported session. -/
theorem C6_change_dir_witness :
    ((change_dir docsVFS "/docs").2.current_path = "/docs" ∧
      ∃ n, get_node (change_dir docsVFS "/docs").2
        ((change_dir docsVFS "/docs").2.current_path) = some n ∧ n.type = "dir") ∧
    (change_dir docsVFS "/zzz").2.current_path = docsVFS.current_path := by
  refine ⟨(C6_change_dir_invariant docsVFS "/docs").1 "/docs" (by decide), ?_⟩
  exact (C6_change_dir_invariant docsVFS "/zzz").2 (Or.inl (by decide))

/-- C9: a successful `chmod` keeps the session's `current_path`, keeps the
view (type tag, child names in order, content) of every node in the tree,
keeps the permissions of every node other than the resolved one, and sets
the resolved node's permissions to the parsed mode. -/
theorem C9_chmod_frame :
    ∀ (v : VFS) (mode path : String) (m : Int),
      (chmod v mode path).1 = .ok m →
      (chmod v mode path).2.current_path = v.current_path ∧
      (∀ q : String, (get_node (chmod v mode path).2 q).map nodeView =
        (get_node v q).map nodeView) ∧
      (∀ q : String,
        normalize_path v.current_path q ≠ normalize_path v.current_path path →
        (get_node (chmod v mode path).2 q).map Node.permissions =
          (get_node v q).map Node.permissions) ∧
      (get_node (chmod v mode path).2 path).map Node.permissions = some (some m) := by
  intro v mode path m hok
  rcases hg : get_node v path with _ | n
  · rw [chmod_notfound hg] at hok
    exact absurd hok (by simp)
  rcases hp : pyIntOct mode with _ | m0
  · rw [chmod_invalid hg hp] at hok
    exact absurd hok (by simp)
  have hch := chmod_ok hg hp
  have hm : m0 = m := by
    rw [hch] at hok
    simpa using hok
  subst hm
  rw [hch]
  have hSn : get_node_aux v.root (nodeSegs (normalize_path v.current_path path)) =
      some n := by
    have h2 := hg
    unfold get_node at h2
    rw [get_node_from_eq_aux] at h2
    exact h2
  have hS : (get_node_aux v.root
      (nodeSegs (normalize_path v.current_path path))).isSome = true := by
    rw [hSn]
    rfl
  refine ⟨rfl, ?_, ?_, ?_⟩
  · intro q
    unfold get_node
    rw [get_node_from_eq_aux, get_node_from_eq_aux]
    exact get_node_aux_update_view m0 _ v.root hS
      (nodeSegs (normalize_path v.current_path q))
  · intro q hq
    unfold get_node
    rw [get_node_from_eq_aux, get_node_from_eq_aux]
    apply get_node_aux_update_perms m0 _ v.root hS
    intro hcon
    exact hq (canonical_inj hcon)
  · unfold get_node
    rw [get_node_from_eq_aux]
    show (get_node_aux (update_at v.root _ m0) _).map Node.permissions = some (some m0)
    rw [get_node_aux_update_self m0 _ v.root hS, hSn]
    show some ((n.withPermissions m0).permissions) = some (some m0)
    rw [Node.permissions_withPermissions]

/-- C9 (witness): the frame property instantiated on the imported session,
with the two closed conclusions extracted. -/
theorem C9_chmod_frame_witness :
    (chmod docsVFS "700" "/docs/readme.txt").2.current_path = docsVFS.current_path ∧
    (get_node (chmod docsVFS "700" "/docs/readme.txt").2 "/docs/readme.txt").map
      Node.permissions = some (some 448) := by
  have h := C9_chmod_frame docsVFS "700" "/docs/readme.txt" 448 (by decide)
  exact ⟨h.1, h.2.2.2⟩

/-- C5 (counterexample): an unparsable mode together with a nonexistent
path yields NotFound, not InvalidMode — `chmod` resolves the path before
parsing the mode. -/
theorem C5_counterexample_notfound_first :
    pyIntOct "abc" = none ∧
    (get_node initVFS "/nonexistent").isSome = false ∧
    (chmod initVFS "abc" "/nonexistent").1 = .notFound ∧
    (chmod initVFS "abc" "/nonexistent").1 ≠ .invalidMode := by
  decide

/-- C5 (amended): path resolution happens before mode parsing: a
nonexistent path yields NotFound regardless of the mode, and InvalidMode
is only ever returned for an existing path with an unparsable mode, with
the state unchanged. -/
theorem C5_amended_resolution_order :
    ∀ (v : VFS) (mode path : String),
      (get_node v path = none → chmod v mode path = (.notFound, v)) ∧
      ((chmod v mode path).1 = .invalidMode →
        (get_node v path).isSome = true ∧ pyIntOct mode = none ∧
        (chmod v mode path).2 = v) := by
  intro v mode path
  constructor
  · exact fun h => chmod_notfound h
  · intro hres
    rcases hg : get_node v path with _ | n
    · rw [chmod_notfound hg] at hres
      exact absurd hres (by simp)
    · rcases hp : pyIntOct mode with _ | m0
      · exact ⟨rfl, rfl, by rw [chmod_invalid hg hp]⟩
      · rw [chmod_ok hg hp] at hres
        exact absurd hres (by simp)

/-- C5 (witness): the NotFound clause instantiated concretely. -/
theorem C5_amended_witness :
    chmod initVFS "abc" "/nonexistent" = (.notFound, initVFS) :=
  (C5_amended_resolution_order initVFS "abc" "/nonexistent").1 rfl

/-- C3 (counterexample): a parsed mode out of the 0-0o777 range is not
rejected: `chmod "7777"` on an existing path succeeds with value 0o7777 =
4095. -/
theorem C3_counterexample_no_range_check :
    (get_node docsVFS "/docs").isSome = true ∧
    pyIntOct "7777" = some 4095 ∧
    ¬((4095 : Int) ≤ 511) ∧
    (chmod docsVFS "7777" "/docs").1 = .ok 4095 ∧
    (chmod docsVFS "7777" "/docs").1 ≠ .invalidMode := by
  decide

/-- C3 (amended): for an existing target path, `chmod` returns InvalidMode
exactly when the mode string fails to parse as an octal integer — there is
no range check, so any parsed value (also outside 0-0o777) is applied —
and when InvalidMode is returned the whole session state, in particular
the target's stored permission, is unchanged. -/
theorem C3_amended_chmod_invalid_mode :
    ∀ (v : VFS) (mode path : String),
      (get_node v path).isSome = true →
      (pyIntOct mode = none → chmod v mode path = (.invalidMode, v)) ∧
      (∀ m : Int, pyIntOct mode = some m → (chmod v mode path).1 = .ok m) := by
  intro v mode path hsome
  rcases hg : get_node v path with _ | n
  · rw [hg] at hsome
    exact absurd hsome (by simp)
  · exact ⟨fun hp => chmod_invalid hg hp, fun m hp => by rw [chmod_ok hg hp]⟩

/-- C3 (witness): the two clauses instantiated concretely. -/
theorem C3_amended_witness :
    chmod docsVFS "abc" "/docs" = (.invalidMode, docsVFS) ∧
    (chmod docsVFS "7777" "/docs").1 = .ok 4095 :=
  ⟨(C3_amended_chmod_invalid_mode docsVFS "abc" "/docs" (by decide)).1 rfl,
   (C3_amended_chmod_invalid_mode docsVFS "7777" "/docs" (by decide)).2 4095 rfl⟩

/-- C4 (counterexample): a sequence import-then-`chmod "7777" "/"` stores
the out-of-range permission 4095 on the root node. -/
theorem C4_counterexample_out_of_range_stored :
    ((chmod (load_from_zip initVFS [] none).2 "7777" "/").2.root.permissions =
      some 4095) ∧
    ¬((4095 : Int) ≤ 511) ∧
    ((chmod (load_from_zip initVFS [] none).2 "7777" "/").2.root.permsOKb = false) := by
  decide

/-- C4 (amended): archive import preserves the 0-0o777 range invariant
(created nodes get 0o644/0o755), `change_dir` never touches the tree,
failed `chmod` calls leave the state unchanged, and a successful `chmod`
preserves the invariant whenever the parsed mode itself lies in 0-0o777 —
but nothing stops an out-of-range parsed mode from being stored. -/
theorem C4_amended_perm_range :
    (∀ (v : VFS) (entries : List ZipEntry) (fa : Option Nat),
      v.root.permsOKb = true → (load_from_zip v entries fa).2.root.permsOKb = true) ∧
    (∀ (v : VFS) (path : String), (change_dir v path).2.root = v.root) ∧
    (∀ (v : VFS) (mode path : String) (m : Int),
      (chmod v mode path).1 = .ok m → 0 ≤ m → m ≤ 511 →
      v.root.permsOKb = true → (chmod v mode path).2.root.permsOKb = true) ∧
    (∀ (v : VFS) (mode path : String),
      (∀ m : Int, (chmod v mode path).1 ≠ .ok m) → (chmod v mode path).2 = v) := by
  refine ⟨?_, ?_, ?_, ?_⟩
  · intro v entries fa h
    cases fa with
    | none => exact load_entries_permsOKb entries v.root h
    | some k => exact load_entries_permsOKb (entries.take k) v.root h
  · intro v path
    unfold change_dir
    rcases get_node v (normalize_path v.current_path path) with _ | node
    · rfl
    · dsimp only
      by_cases htyp : (node.type != "dir") = true
      · rw [if_pos htyp]
      · rw [if_neg htyp]
  · intro v mode path m hok h0 h1 hperm
    rcases hg : get_node v path with _ | n
    · rw [chmod_notfound hg] at hok
      exact absurd hok (by simp)
    rcases hp : pyIntOct mode with _ | m0
    · rw [chmod_invalid hg hp] at hok
      exact absurd hok (by simp)
    have hm : m0 = m := by
      rw [chmod_ok hg hp] at hok
      simpa using hok
    subst hm
    rw [chmod_ok hg hp]
    exact update_at_permsOKb h0 h1 _ v.root hperm
  · intro v mode path hne
    rcases hg : get_node v path with _ | n
    · rw [chmod_notfound hg]
    rcases hp : pyIntOct mode with _ | m0
    · rw [chmod_invalid hg hp]
    · exact absurd (show (chmod v mode path).1 = .ok m0 by rw [chmod_ok hg hp])
        (hne m0)

/-- C4 (witness): the preservation clauses instantiated concretely. -/
theorem C4_amended_witness :
    (load_from_zip initVFS [⟨"docs/", []⟩] none).2.root.permsOKb = true ∧
    (chmod docsVFS "700" "/docs").2.root.permsOKb = true := by
  constructor
  · exact C4_amended_perm_range.1 initVFS [⟨"docs/", []⟩] none (by decide)
  · exact C4_amended_perm_range.2.2.1 docsVFS "700" "/docs" 448 (by decide)
      (by decide) (by decide) (by decide)

/-- C1 (counterexample): importing the non-UTF-8 byte 0xFF stores the
base64 text `/w==` (not the byte itself), and `cat_file` returns that
base64 text, whose bytes differ from the imported content. -/
theorem C1_counterexample_binary_content :
    (get_node binVFS "/f").map Node.content = some "/w==".data ∧
    "/w==".data.map Char.toNat ≠ [255] ∧
    cat_file binVFS "/f" = .ok "/w==".data := by
  decide

/-- C1 (amended): a file entry's bytes B are stored base64-encoded, and
`cat_file` returns the UTF-8 decoding of B when B is valid UTF-8 and the
stored base64 text itself otherwise — raw bytes round-trip only through
the base64 layer, not to the caller. -/
theorem C1_amended_content_base64 :
    ∀ (B : List Nat), (∀ b ∈ B, b < 256) →
      (get_node (oneFileVFS B) "/f").map Node.content = some (b64encode B) ∧
      cat_file (oneFileVFS B) "/f" =
        (match utf8Decode B with
         | some text => CatResult.ok text
         | none => CatResult.ok (b64encode B)) := by
  intro B hB
  have hsc : get_node (oneFileVFS B)
      (normalize_path (oneFileVFS B).current_path "/f") =
      some (Node.mk "file" [] (b64encode B) (some 420)) := rfl
  refine ⟨rfl, ?_⟩
  unfold cat_file
  simp only [hsc]
  have hft : ((Node.mk "file" [] (b64encode B) (some 420)).type != "file") = false := rfl
  rw [if_neg (by simp [hft])]
  show (match b64decode (b64encode B) with
    | some bytes =>
      match utf8Decode bytes with
      | some text => CatResult.ok text
      | none => CatResult.ok (b64encode B)
    | none => CatResult.ok (b64encode B)) = _
  rw [b64decode_b64encode B hB]

/-- C1 (witness): the amended statement instantiated on the UTF-8 content
`hi`. -/
theorem C1_amended_witness :
    (get_node (oneFileVFS [104, 105]) "/f").map Node.content =
      some (b64encode [104, 105]) ∧
    cat_file (oneFileVFS [104, 105]) "/f" =
      (match utf8Decode [104, 105] with
       | some text => CatResult.ok text
       | none => CatResult.ok (b64encode [104, 105])) :=
  C1_amended_content_base64 [104, 105] (by decide)

/-- C2 (counterexample): a container failure after the first of two
entries returns the failure flag, yet the previously missing path `/a` has
become visible — the half-built tree is observable. -/
theorem C2_counterexample_half_built_tree :
    (load_from_zip initVFS [⟨"a", [104]⟩, ⟨"b", [105]⟩] (some 1)).1 = false ∧
    (get_node initVFS "/a").isSome = false ∧
    (get_node (load_from_zip initVFS [⟨"a", [104]⟩, ⟨"b", [105]⟩] (some 1)).2
      "/a").isSome = true := by
  decide

/-- C2 (amended): a failing import reports the load error, keeps
`current_path`, and leaves in the live tree exactly the entries processed
before the failure — the importer mutates `self.root` in place, so the
prefix stays visible (as the concrete instance shows: `/a` present, `/b`
absent). -/
theorem C2_amended_failure_keeps_prefix :
    (∀ (v : VFS) (entries : List ZipEntry) (k : Nat),
      (load_from_zip v entries (some k)).1 = false ∧
      (load_from_zip v entries (some k)).2.current_path = v.current_path ∧
      (load_from_zip v entries (some k)).2.root = load_entries v.root (entries.take k)) ∧
    (get_node (load_from_zip initVFS [⟨"a", [104]⟩, ⟨"b", [105]⟩] (some 1)).2
      "/a").map nodeView = some ("file", [], b64encode [104]) ∧
    (get_node (load_from_zip initVFS [⟨"a", [104]⟩, ⟨"b", [105]⟩] (some 1)).2
      "/b").isSome = false := by
  exact ⟨fun v entries k => ⟨rfl, rfl, rfl⟩, by decide, by decide⟩

end OsShell
